import Mathlib

/-!
Shallow embedding of `src/app.py` (QPAnalyze): a pipeline that extracts
question candidates from PDF text, optionally refines them through a remote
rewrite call, falls back to a fixed template bank, and tallies keywords.

Strings are modelled as `List Char` (`Str`).  Python's ASCII-relevant string
operations (`strip`, `split`, `lower`, `capitalize`, the regex passes of the
source) are embedded as structural recursions so that every definition
evaluates inside the kernel.  Case mapping uses Lean's ASCII
`Char.toLower`/`Char.toUpper`, matching Python's behaviour on the ASCII
range handled by the source's regexes.
-/

namespace QPAnalyze

abbrev Str := List Char

/-- Whitespace class used by Python `str.strip`, `str.split()` and the regex
class `\s` on ASCII input: space, tab, newline, carriage return, vertical
tab, form feed. -/
def pyIsSpace (c : Char) : Bool :=
  c == ' ' || c == '\t' || c == '\n' || c == '\r' || c == '\x0b' || c == '\x0c'

/-- Python `str.strip()`: drop leading and trailing whitespace. -/
def pyStrip (l : Str) : Str :=
  ((l.dropWhile pyIsSpace).reverse.dropWhile pyIsSpace).reverse

/-- Worker for splitting on newline characters, accumulating the current
fragment in reverse. -/
def nlGo : Str → Str → List Str
  | [], cur => [cur.reverse]
  | c :: rest, cur =>
    if c = '\n' then cur.reverse :: nlGo rest []
    else nlGo rest (c :: cur)

/-- Python `text.split("\n")` (line 43 of the source). -/
def splitNL (l : Str) : List Str := nlGo l []

/-- Python `"\n".join(items)`. -/
def joinNL : List Str → Str
  | [] => []
  | [x] => x
  | x :: y :: rest => x ++ '\n' :: joinNL (y :: rest)

/-- One pass of `re.sub(r"([a-z])([A-Z])", r"\1 \2", line)` (line 51):
scan left to right; at a lowercase letter immediately followed by an
uppercase letter, keep both and insert a space between them, resuming the
scan after the uppercase letter (non-overlapping matches). -/
def camelSplit : Str → Str
  | [] => []
  | [c] => [c]
  | a :: b :: rest =>
    if a.isLower && b.isUpper then a :: ' ' :: b :: camelSplit rest
    else a :: camelSplit (b :: rest)

/-- Bullet and dash glyphs of the character class `[•\-–—]` (line 52). -/
def isBullet (c : Char) : Bool :=
  c == '•' || c == '-' || c == '–' || c == '—'

/-- Python `re.sub(r"[•\-–—]", " ", line)` (line 52): each glyph becomes one
space. -/
def bulletRepl (l : Str) : Str :=
  l.map (fun c => if isBullet c then ' ' else c)

/-- Worker for whitespace collapsing.  The flag records whether the scanner
is inside a whitespace run whose single replacement space was already
emitted. -/
def collapseGo : Bool → Str → Str
  | _, [] => []
  | inRun, c :: rest =>
    if pyIsSpace c then
      if inRun then collapseGo true rest
      else ' ' :: collapseGo true rest
    else c :: collapseGo false rest

/-- Python `re.sub(r"\s+", " ", line)` (line 53): every maximal whitespace
run becomes a single space. -/
def collapseWS (l : Str) : Str := collapseGo false l

/-- The three normalization passes of lines 51-55 applied to an (already
stripped) retained line, followed by the final `.strip()` of line 55. -/
def normalizeLine (s : Str) : Str :=
  pyStrip (collapseWS (bulletRepl (camelSplit s)))

/-- The question-verb tuple of lines 48-50. -/
def kwStarts : List Str :=
  ["define".toList, "explain".toList, "describe".toList,
   "differentiate".toList, "compare".toList]

/-- Python `line.lower().startswith(("define", ...))` (lines 48-50). -/
def kwStart (lowered : Str) : Bool :=
  kwStarts.any (fun k => k.isPrefixOf lowered)

/-- Loop body of `extract_question_candidates` (lines 43-55): strip each
line, discard short lines, retain question-like lines, normalize. -/
def scanLines : List Str → List Str
  | [] => []
  | line :: rest =>
    let s := pyStrip line
    if s.length < 25 then scanLines rest
    else if ('?' ∈ s) || kwStart (s.map Char.toLower) then
      normalizeLine s :: scanLines rest
    else scanLines rest

/-- Python `list(dict.fromkeys(xs))` (lines 57, 100): keep the first
occurrence of each element, in order. -/
def dedupAux (seen : List Str) : List Str → List Str
  | [] => []
  | x :: rest =>
    if x ∈ seen then dedupAux seen rest
    else x :: dedupAux (x :: seen) rest

def dedup (l : List Str) : List Str := dedupAux [] l

/-- The function `extract_question_candidates` (lines 40-57). -/
def extract_question_candidates (text : Str) : List Str :=
  dedup (scanLines (splitNL text))

/-- Worker for `re.split(r"\n|\?\s*", raw)` (line 89).  The flag records
whether the scanner sits inside the greedy `\s*` tail of a `?` match; while
it does, whitespace characters (including newlines) are consumed by that
match rather than treated as fresh delimiters. -/
def sgGo : Bool → Str → Str → List Str
  | _, [], cur => [cur.reverse]
  | skip, c :: rest, cur =>
    if skip && pyIsSpace c then sgGo true rest cur
    else if c = '\n' then cur.reverse :: sgGo false rest []
    else if c = '?' then cur.reverse :: sgGo true rest []
    else sgGo false rest (c :: cur)

/-- Python `re.split(r"\n|\?\s*", raw)` (line 89). -/
def splitGen (raw : Str) : List Str := sgGo false raw []

/-- Word counter matching Python `len(q.split())`: number of maximal
non-whitespace runs.  The flag records whether the scan currently sits
inside a word. -/
def countWordsAux (inWord : Bool) : Str → Nat
  | [] => 0
  | c :: rest =>
    if pyIsSpace c then countWordsAux false rest
    else (if inWord then 0 else 1) + countWordsAux true rest

def wordCount (l : Str) : Nat := countWordsAux false l

/-- Python `q.capitalize()` (line 95): first character uppercased, every
remaining character lowercased (ASCII case maps). -/
def pyCapitalize : Str → Str
  | [] => []
  | c :: rest => c.toUpper :: rest.map Char.toLower

/-- Python `q.endswith("?")`. -/
def endsWithQ (l : Str) : Bool := l.getLast? == some '?'

/-- Lines 96-97: append a question mark unless one is already terminal. -/
def addQMark (l : Str) : Str := if endsWithQ l then l else l ++ ['?']

/-- The filter of lines 89-100 applied to a structurally valid
`generated_text`: split, strip, keep fragments of 6-18 words, capitalize,
ensure terminal `?`, deduplicate. -/
def processGenerated (raw : Str) : List Str :=
  dedup ((splitGen raw).filterMap (fun q =>
    let s := pyStrip q
    if 6 ≤ wordCount s && wordCount s ≤ 18 then some (addQMark (pyCapitalize s))
    else none))

/-- Outcomes of the remote rewrite call of lines 77-87, as observed by the
`try` block: the request or `r.json()` raised (`exn`), the parsed payload is
not a list (`notAList`), it is the empty list (`emptyList`, where `data[0]`
raises `IndexError` inside the `try`), its first element lacks a
`generated_text` field (`noGeneratedText`), or it carries a generated text
(`ok`). -/
inductive HFResponse where
  | exn : HFResponse
  | notAList : HFResponse
  | emptyList : HFResponse
  | noGeneratedText : HFResponse
  | ok : Str → HFResponse

/-- Python `"\n".join(seed_questions[:10])` (line 61). -/
def seedBlock (seed_questions : List Str) : Str :=
  joinNL (seed_questions.take 10)

/-- The fixed topic list of `force_questions` (lines 113-126). -/
def topics : List Str :=
  ["database management system".toList, "data model".toList,
   "entity relationship model".toList, "normalization".toList,
   "transaction management".toList, "concurrency control".toList,
   "database architecture".toList, "relational model".toList,
   "indexing".toList, "sql".toList, "data independence".toList,
   "acid properties".toList]

/-- The five template strings of lines 128-134, each split at its
placeholder into the text before and after it; `t.format(topic)` is
`pre ++ topic ++ post`. -/
def templates : List (Str × Str) :=
  [("Define ".toList, "?".toList),
   ("Explain ".toList, ".".toList),
   ("Describe ".toList, " with an example.".toList),
   ("Differentiate ".toList, " and relational databases.".toList),
   ("Explain the importance of ".toList, ".".toList)]

/-- The topic-major, template-minor enumeration order of the nested loops
of lines 139-140. -/
def allPairs : List Str :=
  topics.flatMap (fun topic => templates.map (fun t => t.1 ++ topic ++ t.2))

/-- The loop of lines 139-146: append each formatted question not already
emitted; return as soon as 12 questions are collected; if the enumeration
is exhausted first, return at most the first 10 (line 148). -/
def forceGo (used : List Str) (final : List Str) : List Str → List Str
  | [] => final.take 10
  | q :: rest =>
    let used2 := if q ∈ used then used else q :: used
    let final2 := if q ∈ used then final else final ++ [q]
    if 12 ≤ final2.length then final2
    else forceGo used2 final2 rest

/-- The function `force_questions` (lines 111-148); its argument is unused
in the source (`def force_questions(_)`). -/
def force_questions (_ : Str) : List Str := forceGo [] [] allPairs

/-- The function `ai_clean_questions` (lines 60-108), with the observable
outcome of the remote call passed explicitly.  Every non-`ok` outcome skips
or aborts the `if` of line 86 (the `emptyList` `IndexError` lands in the
`except` of line 105) and reaches line 108; an `ok` outcome runs the filter
and still falls back when fewer than `MIN_QUESTIONS = 5` survive. -/
def ai_clean_questions (seed_questions : List Str) (resp : HFResponse) :
    List Str :=
  match resp with
  | .ok raw =>
    let final := processGenerated raw
    if 5 ≤ final.length then final
    else force_questions (seedBlock seed_questions)
  | _ => force_questions (seedBlock seed_questions)

/-- The stop-word set of lines 19-23. -/
def STOP_WORDS : List Str :=
  ["define".toList, "explain".toList, "describe".toList, "what".toList,
   "why".toList, "how".toList, "importance".toList, "advantages".toList,
   "various".toList, "related".toList, "difference".toList,
   "differentiate".toList, "model".toList, "models".toList,
   "concept".toList, "used".toList, "between".toList]

/-- Worker for `re.findall(r"[a-zA-Z]{4,}", s)`: collect maximal alphabetic
runs, keeping those of length at least 4; `cur` holds the current run in
reverse. -/
def lettersGo : Str → Str → List Str
  | [], cur => if 4 ≤ cur.length then [cur.reverse] else []
  | c :: rest, cur =>
    if c.isAlpha then lettersGo rest (c :: cur)
    else if 4 ≤ cur.length then cur.reverse :: lettersGo rest []
    else lettersGo rest []

/-- Python `re.findall(r"[a-zA-Z]{4,}", q.lower())` (line 154). -/
def findWords (q : Str) : List Str := lettersGo (q.map Char.toLower) []

/-- The word list built by the loop of lines 152-156: alphabetic runs of
length at least 4, lowercased, stop words excluded. -/
def keywordWords (questions : List Str) : List Str :=
  questions.flatMap (fun q => (findWords q).filter (fun w => w ∉ STOP_WORDS))

/-- One `Counter` update: bump the count of `w`, preserving first-seen key
order (Python dict insertion order). -/
def bump : List (Str × Nat) → Str → List (Str × Nat)
  | [], w => [(w, 1)]
  | (k, n) :: t, w =>
    if k = w then (k, n + 1) :: t else (k, n) :: bump t w

/-- Python `Counter(words)` as an insertion-ordered association list. -/
def tallyGo (acc : List (Str × Nat)) : List Str → List (Str × Nat)
  | [] => acc
  | w :: rest => tallyGo (bump acc w) rest

/-- Stable insertion of one entry into a count-descending list: an entry
moves past only strictly larger counts, so equal counts keep first-seen
order, matching `sorted(..., reverse=True)` stability used by
`Counter.most_common`. -/
def insertDesc (x : Str × Nat) : List (Str × Nat) → List (Str × Nat)
  | [] => [x]
  | y :: t => if x.2 < y.2 then y :: insertDesc x t else x :: y :: t

/-- Stable sort by descending count. -/
def sortDesc : List (Str × Nat) → List (Str × Nat)
  | [] => []
  | x :: t => insertDesc x (sortDesc t)

/-- The function `extract_keywords` (lines 151-158):
`Counter(words).most_common(10)`. -/
def extract_keywords (questions : List Str) : List (Str × Nat) :=
  (sortDesc (tallyGo [] (keywordWords questions))).take 10

/-- A PDF document as seen by `extract_text_from_pdf` (lines 30-37):
`none` models a file `pdfplumber.open` fails to open or parse (the call
raises); `some pages` models a parsed document whose pages each yield
either extracted text or Python `None`. -/
abbrev PDoc := Option (List (Option Str))

/-- The function `extract_text_from_pdf` (lines 30-37): concatenate each
page's text followed by a newline, skipping pages without text; an
unreadable document raises, modelled as `Except.error`. -/
def extract_text_from_pdf (doc : PDoc) : Except Unit Str :=
  match doc with
  | none => .error ()
  | some pages =>
    .ok (pages.foldl (fun acc t? =>
      match t? with
      | some t => acc ++ t ++ ['\n']
      | none => acc) [])

/-- The candidate-collection loop of `analyze` (lines 184-191): extend the
candidate list with each selected document's candidates.  The source wraps
`extract_text_from_pdf` in no handler, so a raised error propagates. -/
def collectGo (acc : List Str) : List PDoc → Except Unit (List Str)
  | [] => .ok acc
  | d :: rest =>
    match extract_text_from_pdf d with
    | .error e => .error e
    | .ok t => collectGo (acc ++ extract_question_candidates t) rest

/-- Candidate collection over the selected documents of one `analyze`
request (lines 184-191). -/
def analyze_candidates (docs : List PDoc) : Except Unit (List Str) :=
  collectGo [] docs

/-- Spec predicate: the string ends with exactly one trailing question mark
(a terminal `?` not preceded by another `?`). -/
def endsExactlyOneQ (l : Str) : Bool :=
  match l.reverse with
  | [] => false
  | c :: rest => c == '?' && !(rest.headD ' ' == '?')

/-- Concrete inputs used by scenario claims. -/
def scenarioDRaw : Str :=
  "Explain ACID properties in detail\nWhat is normalization\n".toList

def bulletLine : Str := List.replicate 25 '•' ++ ['?']

def readableText : Str :=
  "Define normalization and explain its types in detail".toList

/-! ## ASCII character facts -/

theorem char_toNat_ofNat (n : Nat) (h : n.isValidChar) :
    (Char.ofNat n).toNat = n := by
  simp only [Char.ofNat, dif_pos h]
  rfl

theorem char_eq_iff {c d : Char} : c = d ↔ c.toNat = d.toNat := by
  constructor
  · intro h; rw [h]
  · intro h; exact Char.ext (UInt32.ext h)

theorem isUpper_iff {c : Char} : c.isUpper = true ↔ 65 ≤ c.toNat ∧ c.toNat ≤ 90 := by
  simp only [Char.isUpper, Bool.and_eq_true, decide_eq_true_eq]
  exact Iff.rfl

theorem isLower_iff {c : Char} : c.isLower = true ↔ 97 ≤ c.toNat ∧ c.toNat ≤ 122 := by
  simp only [Char.isLower, Bool.and_eq_true, decide_eq_true_eq]
  exact Iff.rfl

theorem pyIsSpace_iff {c : Char} :
    pyIsSpace c = true ↔
      (c.toNat = 32 ∨ c.toNat = 9 ∨ c.toNat = 10 ∨ c.toNat = 13 ∨
       c.toNat = 11 ∨ c.toNat = 12) := by
  have h1 : (' ' : Char).toNat = 32 := rfl
  have h2 : ('\t' : Char).toNat = 9 := rfl
  have h3 : ('\n' : Char).toNat = 10 := rfl
  have h4 : ('\r' : Char).toNat = 13 := rfl
  have h5 : ('\x0b' : Char).toNat = 11 := rfl
  have h6 : ('\x0c' : Char).toNat = 12 := rfl
  simp only [pyIsSpace, Bool.or_eq_true, beq_iff_eq, char_eq_iff, h1, h2, h3,
    h4, h5, h6]
  tauto

/-- ASCII lowercasing never yields an uppercase letter. -/
theorem isUpper_toLower (c : Char) : (Char.toLower c).isUpper = false := by
  simp only [Char.toLower]
  split
  · next h =>
    rw [Bool.eq_false_iff]
    intro hu
    rw [isUpper_iff, char_toNat_ofNat _ (Or.inl (by omega))] at hu
    omega
  · next h =>
    rw [Bool.eq_false_iff]
    intro hu
    rw [isUpper_iff] at hu
    omega

theorem toLower_toNat_cases (c : Char) :
    (Char.toLower c).toNat = c.toNat + 32 ∧ 65 ≤ c.toNat ∧ c.toNat ≤ 90 ∨
    Char.toLower c = c := by
  simp only [Char.toLower]
  split
  · next h => exact Or.inl ⟨char_toNat_ofNat _ (Or.inl (by omega)), h⟩
  · next h => exact Or.inr rfl

theorem toUpper_toNat_cases (c : Char) :
    (Char.toUpper c).toNat = c.toNat - 32 ∧ 97 ≤ c.toNat ∧ c.toNat ≤ 122 ∨
    Char.toUpper c = c := by
  simp only [Char.toUpper]
  split
  · next h => exact Or.inl ⟨char_toNat_ofNat _ (Or.inl (by omega)), h⟩
  · next h => exact Or.inr rfl

theorem pyIsSpace_toLower (c : Char) :
    pyIsSpace (Char.toLower c) = pyIsSpace c := by
  rcases toLower_toNat_cases c with ⟨hn, hlo, hhi⟩ | heq
  · have l : pyIsSpace (Char.toLower c) = false := by
      rw [Bool.eq_false_iff]
      intro h
      rw [pyIsSpace_iff, hn] at h
      omega
    have r : pyIsSpace c = false := by
      rw [Bool.eq_false_iff]
      intro h
      rw [pyIsSpace_iff] at h
      omega
    rw [l, r]
  · rw [heq]

theorem pyIsSpace_toUpper (c : Char) :
    pyIsSpace (Char.toUpper c) = pyIsSpace c := by
  rcases toUpper_toNat_cases c with ⟨hn, hlo, hhi⟩ | heq
  · have l : pyIsSpace (Char.toUpper c) = false := by
      rw [Bool.eq_false_iff]
      intro h
      rw [pyIsSpace_iff, hn] at h
      omega
    have r : pyIsSpace c = false := by
      rw [Bool.eq_false_iff]
      intro h
      rw [pyIsSpace_iff] at h
      omega
    rw [l, r]
  · rw [heq]

theorem toLower_eq_qmark {c : Char} (h : Char.toLower c = '?') : c = '?' := by
  rcases toLower_toNat_cases c with ⟨hn, hlo, hhi⟩ | heq
  · exfalso
    rw [char_eq_iff] at h
    have hq : ('?' : Char).toNat = 63 := rfl
    omega
  · rw [← heq]; exact h

theorem toUpper_eq_qmark {c : Char} (h : Char.toUpper c = '?') : c = '?' := by
  rcases toUpper_toNat_cases c with ⟨hn, hlo, hhi⟩ | heq
  · exfalso
    rw [char_eq_iff] at h
    have hq : ('?' : Char).toNat = 63 := rfl
    omega
  · rw [← heq]; exact h

/-! ## Deduplication facts -/

theorem mem_of_mem_dedupAux :
    ∀ {l : List Str} {seen x}, x ∈ dedupAux seen l → x ∈ l := by
  intro l
  induction l with
  | nil => intro seen x h; simp [dedupAux] at h
  | cons a t ih =>
    intro seen x h
    unfold dedupAux at h
    split at h
    · exact List.mem_cons_of_mem _ (ih h)
    · rcases List.mem_cons.mp h with rfl | h'
      · exact List.mem_cons_self _ _
      · exact List.mem_cons_of_mem _ (ih h')

theorem not_mem_seen_of_mem_dedupAux :
    ∀ {l : List Str} {seen x}, x ∈ dedupAux seen l → x ∉ seen := by
  intro l
  induction l with
  | nil => intro seen x h; simp [dedupAux] at h
  | cons a t ih =>
    intro seen x h
    unfold dedupAux at h
    split at h
    · exact ih h
    · next hnot =>
      rcases List.mem_cons.mp h with rfl | h'
      · exact hnot
      · intro hseen
        exact ih h' (List.mem_cons_of_mem _ hseen)

theorem nodup_dedupAux : ∀ (l : List Str) (seen), (dedupAux seen l).Nodup := by
  intro l
  induction l with
  | nil => intro seen; simp [dedupAux]
  | cons a t ih =>
    intro seen
    unfold dedupAux
    split
    · exact ih seen
    · refine List.Nodup.cons ?_ (ih (a :: seen))
      intro hmem
      exact not_mem_seen_of_mem_dedupAux hmem (List.mem_cons_self _ _)

theorem mem_of_mem_dedup {l : List Str} {x} (h : x ∈ dedup l) : x ∈ l :=
  mem_of_mem_dedupAux h

theorem nodup_dedup (l : List Str) : (dedup l).Nodup := nodup_dedupAux l []

/-! ## Claim theorems (first group) -/

/-- C5: `force_questions` is deterministic and independent of its input:
any two invocations produce the identical ordered list, whose length lies
between 10 and 12 (it is in fact exactly 12 for the fixed 12-topic by
5-template tables). -/
theorem force_questions_deterministic_bounded (a b : Str) :
    force_questions a = force_questions b ∧
    10 ≤ (force_questions a).length ∧ (force_questions a).length ≤ 12 :=
  ⟨rfl, (by decide : 10 ≤ (forceGo [] [] allPairs).length),
    (by decide : (forceGo [] [] allPairs).length ≤ 12)⟩

/-- C1: whenever the rewrite call raises (transport failure, timeout) or
returns a malformed or empty payload, `ai_clean_questions` handles it
locally and returns exactly the output of `force_questions`; no error is
propagated (the embedding is total, so nothing can escape). -/
theorem ai_clean_questions_catches_failures (seed : List Str)
    (resp : HFResponse)
    (h : resp = HFResponse.exn ∨ resp = HFResponse.notAList ∨
         resp = HFResponse.emptyList ∨ resp = HFResponse.noGeneratedText) :
    ai_clean_questions seed resp = force_questions (seedBlock seed) := by
  rcases h with rfl | rfl | rfl | rfl <;> rfl

/-- Witness for C1 at a concrete seed and the exception outcome. -/
theorem ai_clean_questions_catches_failures_witness :
    (HFResponse.exn = HFResponse.exn ∨ HFResponse.exn = HFResponse.notAList ∨
     HFResponse.exn = HFResponse.emptyList ∨
     HFResponse.exn = HFResponse.noGeneratedText) ∧
    ai_clean_questions ["define sql".toList] HFResponse.exn =
      force_questions (seedBlock ["define sql".toList]) :=
  ⟨Or.inl rfl, ai_clean_questions_catches_failures _ _ (Or.inl rfl)⟩

/-- C4 counterexample: on the scenario-D payload the filter of
`ai_clean_questions` keeps 0 fragments, not 2 — both fragments fail the
6-word minimum ("Explain ACID properties in detail" has 5 words, "What is
normalization" has 3). -/
theorem scenario_d_two_fragments_counterexample :
    (processGenerated scenarioDRaw).length ≠ 2 := by decide

/-- C4 (amended): on the scenario-D payload the filter keeps exactly 0
fragments, and since 0 is below the minimum threshold 5 the final result is
the fallback set from `force_questions`, not the model fragments. -/
theorem scenario_d_fallback (seed : List Str) :
    (processGenerated scenarioDRaw).length = 0 ∧
    ai_clean_questions seed (HFResponse.ok scenarioDRaw) =
      force_questions (seedBlock seed) := by
  exact ⟨by decide, rfl⟩

/-- C9: on the scenario-E question set, `extract_keywords` returns exactly
the pairs (normalization, 1), (indexing, 1), (keys, 1) in first-seen
order, with the stop words "define" and "explain" excluded. -/
theorem scenario_e_keywords :
    extract_keywords ["Define normalization?".toList,
        "Explain indexing and keys?".toList] =
      [("normalization".toList, 1), ("indexing".toList, 1),
       ("keys".toList, 1)] := by
  decide

/-- C2 counterexample: on the fallback path the returned set contains
"Explain database management system.", which has 4 words (fewer than 6)
and does not end in a question mark at all. -/
theorem final_shape_fallback_counterexample :
    "Explain database management system.".toList ∈
      ai_clean_questions [] HFResponse.exn ∧
    wordCount "Explain database management system.".toList < 6 ∧
    endsExactlyOneQ "Explain database management system.".toList = false := by
  decide

/-- C6 counterexample: a line of 25 bullets followed by `?` is retained
(length 26, contains `?`) but normalizes to the single-character candidate
"?"; re-running the scanner on its own output drops it (length 1 < 25), so
the rerun does not reproduce the candidate set. -/
theorem scanner_rerun_counterexample :
    extract_question_candidates bulletLine = [['?']] ∧
    extract_question_candidates
      (joinNL (extract_question_candidates bulletLine)) = [] := by
  decide

/-- C3 counterexample: with an unreadable first document and a readable
second one, the candidate loop of `analyze` propagates the read error and
aborts, even though the second document alone yields a candidate. -/
theorem unreadable_doc_abort_counterexample :
    analyze_candidates [none, some [some readableText]] = Except.error () ∧
    analyze_candidates [some [some readableText]] =
      Except.ok [readableText] := by
  constructor
  · rfl
  · rfl

/-- Helper for C3: an unreadable document anywhere in the selection aborts
the collection loop. -/
theorem collectGo_error_of_mem :
    ∀ (docs : List PDoc) (acc : List Str), none ∈ docs →
      collectGo acc docs = Except.error () := by
  intro docs
  induction docs with
  | nil => intro acc h; simp at h
  | cons d rest ih =>
    intro acc h
    rcases List.mem_cons.mp h with rfl | h'
    · rfl
    · cases d with
      | none => rfl
      | some pages => exact ih _ h'

/-- C3 (amended): a selected document that cannot be opened or parsed does
not contribute empty text and does not let iteration continue — the read
error propagates and the whole candidate-collection loop of `analyze`
aborts without a result. -/
theorem unreadable_doc_aborts_pipeline (docs : List PDoc)
    (h : none ∈ docs) : analyze_candidates docs = Except.error () :=
  collectGo_error_of_mem docs [] h

/-- Witness for the amended C3 at a concrete selection. -/
theorem unreadable_doc_aborts_pipeline_witness :
    (none ∈ ([none, some [some readableText]] : List PDoc)) ∧
    analyze_candidates [none, some [some readableText]] =
      Except.error () :=
  ⟨by decide, unreadable_doc_aborts_pipeline _ (by decide)⟩

/-! ## Keyword summarizer facts (C8) -/

theorem mem_insertDesc {z x : Str × Nat} :
    ∀ {l}, z ∈ insertDesc x l → z = x ∨ z ∈ l := by
  intro l
  induction l with
  | nil =>
    intro h
    simp only [insertDesc, List.mem_singleton] at h
    exact Or.inl h
  | cons y t ih =>
    intro h
    unfold insertDesc at h
    split at h
    · rcases List.mem_cons.mp h with rfl | h'
      · exact Or.inr (List.mem_cons_self _ _)
      · rcases ih h' with h'' | h''
        · exact Or.inl h''
        · exact Or.inr (List.mem_cons_of_mem _ h'')
    · rcases List.mem_cons.mp h with rfl | h'
      · exact Or.inl rfl
      · exact Or.inr h'

theorem mem_sortDesc {z : Str × Nat} : ∀ {l}, z ∈ sortDesc l → z ∈ l := by
  intro l
  induction l with
  | nil => intro h; simp [sortDesc] at h
  | cons x t ih =>
    intro h
    rcases mem_insertDesc h with rfl | h'
    · exact List.mem_cons_self _ _
    · exact List.mem_cons_of_mem _ (ih h')

theorem bump_inv (P : Str → Prop) {w : Str} (hw : P w) :
    ∀ {acc}, (∀ p ∈ acc, P p.1 ∧ 1 ≤ p.2) →
      ∀ p ∈ bump acc w, P p.1 ∧ 1 ≤ p.2 := by
  intro acc
  induction acc with
  | nil =>
    intro _ p hp
    simp only [bump, List.mem_singleton] at hp
    subst hp
    exact ⟨hw, le_refl 1⟩
  | cons kn t ih =>
    intro hacc p hp
    obtain ⟨k, n⟩ := kn
    unfold bump at hp
    split at hp
    · rcases List.mem_cons.mp hp with rfl | hp'
      · have := hacc (k, n) (List.mem_cons_self _ _)
        exact ⟨this.1, by omega⟩
      · exact hacc _ (List.mem_cons_of_mem _ hp')
    · rcases List.mem_cons.mp hp with rfl | hp'
      · exact hacc _ (List.mem_cons_self _ _)
      · exact ih (fun q hq => hacc q (List.mem_cons_of_mem _ hq)) p hp'

theorem tally_inv (P : Str → Prop) :
    ∀ (ws : List Str) (acc : List (Str × Nat)),
      (∀ p ∈ acc, P p.1 ∧ 1 ≤ p.2) → (∀ w ∈ ws, P w) →
      ∀ p ∈ tallyGo acc ws, P p.1 ∧ 1 ≤ p.2 := by
  intro ws
  induction ws with
  | nil => intro acc hacc _ p hp; exact hacc p hp
  | cons w rest ih =>
    intro acc hacc hws p hp
    refine ih (bump acc w) ?_ (fun v hv => hws v (List.mem_cons_of_mem _ hv)) p hp
    exact bump_inv P (hws w (List.mem_cons_self _ _)) hacc

theorem keywordWords_not_stop {qs : List Str} {w : Str}
    (h : w ∈ keywordWords qs) : w ∉ STOP_WORDS := by
  rw [keywordWords, List.mem_flatMap] at h
  obtain ⟨q, _, hw⟩ := h
  have := (List.mem_filter.mp hw).2
  simpa using this

/-- C8: for every list of question strings, `extract_keywords` returns at
most 10 entries, none of whose words belongs to the fixed stop-word set,
and every returned count is at least 1. -/
theorem extract_keywords_bounded (qs : List Str) :
    (extract_keywords qs).length ≤ 10 ∧
    ∀ p ∈ extract_keywords qs, p.1 ∉ STOP_WORDS ∧ 1 ≤ p.2 := by
  refine ⟨List.length_take_le _ _, ?_⟩
  intro p hp
  have h1 : p ∈ sortDesc (tallyGo [] (keywordWords qs)) :=
    List.mem_of_mem_take hp
  have h2 : p ∈ tallyGo [] (keywordWords qs) := mem_sortDesc h1
  exact tally_inv (fun w => w ∉ STOP_WORDS) (keywordWords qs) []
    (by simp) (fun w hw => keywordWords_not_stop hw) p h2

/-- Witness for C8 at a concrete question list and returned entry. -/
theorem extract_keywords_bounded_witness :
    (("normalization".toList, 1) ∈
      extract_keywords ["Define normalization?".toList]) ∧
    ("normalization".toList ∉ STOP_WORDS ∧
      1 ≤ (("normalization".toList, 1) : Str × Nat).2) :=
  ⟨by decide,
    (extract_keywords_bounded ["Define normalization?".toList]).2
      ("normalization".toList, 1) (by decide)⟩

/-! ## Candidate scanner facts (C7) -/

/-- Two adjacent characters are not both whitespace. -/
def noWSRun (a b : Char) : Prop := ¬(pyIsSpace a = true ∧ pyIsSpace b = true)

theorem pyStrip_infixOf (l : Str) : pyStrip l <:+: l := by
  have h2 : List.dropWhile pyIsSpace (List.dropWhile pyIsSpace l).reverse <:+
      (List.dropWhile pyIsSpace l).reverse := List.dropWhile_suffix _
  have h3 : pyStrip l <+: List.dropWhile pyIsSpace l := by
    refine List.reverse_suffix.mp ?_
    rw [pyStrip, List.reverse_reverse]
    exact h2
  have hpre := List.IsPrefix.isInfix h3
  have hsuf := List.IsSuffix.isInfix (List.dropWhile_suffix pyIsSpace (l := l))
  exact List.IsInfix.trans hpre hsuf

theorem mem_of_mem_pyStrip {l : Str} {c : Char} (h : c ∈ pyStrip l) : c ∈ l :=
  List.IsInfix.subset (pyStrip_infixOf l) h

theorem head_collapseGo_true :
    ∀ (l : Str) (c : Char), (collapseGo true l).head? = some c →
      pyIsSpace c = false := by
  intro l
  induction l with
  | nil => intro c h; simp [collapseGo] at h
  | cons d t ih =>
    intro c h
    unfold collapseGo at h
    split at h
    · exact ih c h
    · next hd =>
      simp only [List.head?_cons, Option.some.injEq] at h
      subst h
      exact Bool.eq_false_iff.mpr hd

theorem chain_collapseGo : ∀ (l : Str) (b : Bool),
    List.Chain' noWSRun (collapseGo b l) := by
  intro l
  induction l with
  | nil => intro b; simp [collapseGo]
  | cons c t ih =>
    intro b
    unfold collapseGo
    split
    · next hc =>
      split
      · exact ih true
      · rw [List.chain'_cons']
        refine ⟨?_, ih true⟩
        intro y hy
        intro hcon
        rw [head_collapseGo_true t y hy] at hcon
        exact Bool.false_ne_true hcon.2
    · next hc =>
      rw [List.chain'_cons']
      refine ⟨?_, ih false⟩
      intro y _
      intro hcon
      exact hc hcon.1

theorem chain_noWSRun_normalizeLine (s : Str) :
    List.Chain' noWSRun (normalizeLine s) :=
  List.Chain'.infix (chain_collapseGo (bulletRepl (camelSplit s)) false)
    (pyStrip_infixOf _)

theorem scanLines_mem :
    ∀ {ls : List Str} {x : Str}, x ∈ scanLines ls →
      ∃ line ∈ ls, 25 ≤ (pyStrip line).length ∧
        x = normalizeLine (pyStrip line) := by
  intro ls
  induction ls with
  | nil => intro x h; simp [scanLines] at h
  | cons line rest ih =>
    intro x h
    unfold scanLines at h
    dsimp only at h
    split at h
    · obtain ⟨l', hmem, hlen, hx⟩ := ih h
      exact ⟨l', List.mem_cons_of_mem _ hmem, hlen, hx⟩
    · next hlen =>
      split at h
      · rcases List.mem_cons.mp h with rfl | h'
        · exact ⟨line, List.mem_cons_self _ _, by omega, rfl⟩
        · obtain ⟨l', hmem, hl, hx⟩ := ih h'
          exact ⟨l', List.mem_cons_of_mem _ hmem, hl, hx⟩
      · obtain ⟨l', hmem, hl, hx⟩ := ih h
        exact ⟨l', List.mem_cons_of_mem _ hmem, hl, hx⟩

/-- C7: every candidate emitted by `extract_question_candidates` comes from
some trimmed source line whose pre-normalization length is at least 25, and
the emitted candidate contains no run of two or more consecutive whitespace
characters. -/
theorem scanner_candidate_provenance (t x : Str)
    (hx : x ∈ extract_question_candidates t) :
    (∃ line ∈ splitNL t, 25 ≤ (pyStrip line).length ∧
      x = normalizeLine (pyStrip line)) ∧
    List.Chain' noWSRun x := by
  have h1 : x ∈ scanLines (splitNL t) := mem_of_mem_dedup hx
  obtain ⟨line, hmem, hlen, hx'⟩ := scanLines_mem h1
  subst hx'
  exact ⟨⟨line, hmem, hlen, rfl⟩, chain_noWSRun_normalizeLine _⟩

/-- Witness for C7 at a concrete input whose single line is retained. -/
theorem scanner_candidate_provenance_witness :
    readableText ∈ extract_question_candidates readableText ∧
    ((∃ line ∈ splitNL readableText, 25 ≤ (pyStrip line).length ∧
        readableText = normalizeLine (pyStrip line)) ∧
      List.Chain' noWSRun readableText) :=
  ⟨by decide, scanner_candidate_provenance readableText readableText (by decide)⟩

/-! ## Question refiner facts (C2, C10) -/

theorem sgGo_no_qmark :
    ∀ (l : Str) (skip : Bool) (cur : Str), '?' ∉ cur →
      ∀ x ∈ sgGo skip l cur, '?' ∉ x := by
  intro l
  induction l with
  | nil =>
    intro skip cur hcur x hx
    simp only [sgGo, List.mem_singleton] at hx
    subst hx
    intro hq
    exact hcur (List.mem_reverse.mp hq)
  | cons c rest ih =>
    intro skip cur hcur x hx
    unfold sgGo at hx
    split at hx
    · exact ih true cur hcur x hx
    · split at hx
      · rcases List.mem_cons.mp hx with rfl | hx'
        · intro hq
          exact hcur (List.mem_reverse.mp hq)
        · exact ih false [] (by simp) x hx'
      · split at hx
        · rcases List.mem_cons.mp hx with rfl | hx'
          · intro hq
            exact hcur (List.mem_reverse.mp hq)
          · exact ih true [] (by simp) x hx'
        · next hnl hq =>
          refine ih false (c :: cur) ?_ x hx
          intro hmem
          rcases List.mem_cons.mp hmem with rfl | h'
          · exact hq rfl
          · exact hcur h'

theorem splitGen_no_qmark {raw frag : Str} (h : frag ∈ splitGen raw) :
    '?' ∉ frag :=
  sgGo_no_qmark raw false [] (by simp) frag h

theorem pyCapitalize_no_qmark {s : Str} (h : '?' ∉ s) :
    '?' ∉ pyCapitalize s := by
  cases s with
  | nil => simp [pyCapitalize]
  | cons c rest =>
    intro hmem
    rcases List.mem_cons.mp hmem with hc | hr
    · have : c = '?' := toUpper_eq_qmark hc.symm
      exact h (this ▸ List.mem_cons_self _ _)
    · obtain ⟨d, hd, hde⟩ := List.mem_map.mp hr
      have : d = '?' := toLower_eq_qmark hde
      exact h (List.mem_cons_of_mem _ (this ▸ hd))

theorem countWordsAux_map_toLower :
    ∀ (l : Str) (b : Bool),
      countWordsAux b (List.map Char.toLower l) = countWordsAux b l := by
  intro l
  induction l with
  | nil => intro b; rfl
  | cons c rest ih =>
    intro b
    simp only [List.map_cons, countWordsAux, pyIsSpace_toLower]
    split
    · exact ih false
    · rw [ih true]

theorem countWordsAux_pyCapitalize (s : Str) (b : Bool) :
    countWordsAux b (pyCapitalize s) = countWordsAux b s := by
  cases s with
  | nil => rfl
  | cons c rest =>
    simp only [pyCapitalize, countWordsAux, pyIsSpace_toUpper]
    split
    · exact countWordsAux_map_toLower rest false
    · rw [countWordsAux_map_toLower rest true]

theorem countWordsAux_append_nonspace :
    ∀ (s : Str) (b : Bool) (c : Char), pyIsSpace c = false →
      (∀ d, s.getLast? = some d → pyIsSpace d = false) → s ≠ [] →
      countWordsAux b (s ++ [c]) = countWordsAux b s := by
  intro s
  induction s with
  | nil => intro b c _ _ hne; exact absurd rfl hne
  | cons a t ih =>
    intro b c hc hlast _
    cases t with
    | nil =>
      have ha : pyIsSpace a = false := hlast a rfl
      simp [countWordsAux, ha, hc]
    | cons a' t' =>
      have hlast' : ∀ d, (a' :: t').getLast? = some d → pyIsSpace d = false := by
        intro d hd
        exact hlast d (List.getLast?_cons_cons.symm ▸ hd)
      have step : ∀ (b' : Bool) (l : List Char),
          countWordsAux b' (a :: l) =
            if pyIsSpace a then countWordsAux false l
            else (if b' then 0 else 1) + countWordsAux true l :=
        fun _ _ => rfl
      rw [List.cons_append, step, step]
      split
      · exact ih false c hc hlast' (by simp)
      · rw [ih true c hc hlast' (by simp)]

theorem pyStrip_getLast?_not_space {l : Str} {d : Char}
    (h : (pyStrip l).getLast? = some d) : pyIsSpace d = false := by
  rw [pyStrip, List.getLast?_reverse] at h
  have hm := List.head?_dropWhile_not pyIsSpace
    (List.dropWhile pyIsSpace l).reverse
  rw [h] at hm
  exact hm

theorem wordCount_pos_ne_nil {s : Str} (h : 1 ≤ wordCount s) : s ≠ [] := by
  intro he
  subst he
  simp [wordCount, countWordsAux] at h

theorem endsWithQ_eq_false_of_no_qmark {l : Str} (h : '?' ∉ l) :
    endsWithQ l = false := by
  rw [endsWithQ]
  cases hg : l.getLast? with
  | none => rfl
  | some c =>
    have hc : c ∈ l := List.mem_of_mem_getLast? hg
    have : ¬(c = '?') := fun he => h (he ▸ hc)
    simp [this]

theorem endsExactlyOneQ_append {X : Str} (h : '?' ∉ X) :
    endsExactlyOneQ (X ++ ['?']) = true := by
  rw [endsExactlyOneQ]
  rw [List.reverse_append]
  simp only [List.reverse_cons, List.reverse_nil, List.nil_append,
    List.cons_append, List.nil_append]
  cases hx : X.reverse with
  | nil => rfl
  | cons hd tl =>
    have hmem : hd ∈ X := List.mem_reverse.mp (hx ▸ List.mem_cons_self _ _)
    have : ¬(hd = '?') := fun he => h (he ▸ hmem)
    simp [this]

theorem mem_processGenerated {raw x : Str} (hx : x ∈ processGenerated raw) :
    ∃ frag ∈ splitGen raw,
      (6 ≤ wordCount (pyStrip frag) ∧ wordCount (pyStrip frag) ≤ 18) ∧
      x = addQMark (pyCapitalize (pyStrip frag)) := by
  have h1 := mem_of_mem_dedup hx
  obtain ⟨frag, hmem, hf⟩ := List.mem_filterMap.mp h1
  dsimp only at hf
  split at hf
  · next hcond =>
    simp only [Option.some.injEq] at hf
    rw [Bool.and_eq_true, decide_eq_true_eq, decide_eq_true_eq] at hcond
    exact ⟨frag, hmem, hcond, hf.symm⟩
  · exact absurd hf (by simp)

theorem pyCapitalize_getLast?_not_space {s : Str}
    (hs : ∀ d, s.getLast? = some d → pyIsSpace d = false) :
    ∀ d, (pyCapitalize s).getLast? = some d → pyIsSpace d = false := by
  intro d hd
  cases s with
  | nil => simp [pyCapitalize] at hd
  | cons c rest =>
    cases rest with
    | nil =>
      simp only [pyCapitalize, List.map_nil, List.getLast?_singleton,
        Option.some.injEq] at hd
      subst hd
      rw [pyIsSpace_toUpper]
      exact hs c rfl
    | cons c' rest' =>
      rw [pyCapitalize, List.map_cons, List.getLast?_cons_cons,
        ← List.map_cons, List.getLast?_map] at hd
      cases hg : (c' :: rest').getLast? with
      | none => simp [hg] at hd
      | some e =>
        rw [hg] at hd
        simp only [Option.map_some', Option.some.injEq] at hd
        subst hd
        rw [pyIsSpace_toLower]
        exact hs e (List.getLast?_cons_cons.symm ▸ hg)

/-- C2 (amended): every element produced on the refiner (non-fallback)
path — every element of the deduplicated filter output that
`ai_clean_questions` returns when the threshold is met — has a word count
between 6 and 18 inclusive and ends with exactly one trailing `?`.  (The
fallback path violates the claim, see the counterexample.) -/
theorem refiner_output_shape (raw x : Str) (hx : x ∈ processGenerated raw) :
    6 ≤ wordCount x ∧ wordCount x ≤ 18 ∧ endsExactlyOneQ x = true := by
  obtain ⟨frag, hmem, ⟨h6, h18⟩, hxe⟩ := mem_processGenerated hx
  subst hxe
  have hfq : '?' ∉ frag := splitGen_no_qmark hmem
  have hsq : '?' ∉ pyStrip frag := fun h => hfq (mem_of_mem_pyStrip h)
  have hcq : '?' ∉ pyCapitalize (pyStrip frag) := pyCapitalize_no_qmark hsq
  have hend : endsWithQ (pyCapitalize (pyStrip frag)) = false :=
    endsWithQ_eq_false_of_no_qmark hcq
  have hadd : addQMark (pyCapitalize (pyStrip frag)) =
      pyCapitalize (pyStrip frag) ++ ['?'] := by
    rw [addQMark, hend]
    simp
  have hne : pyStrip frag ≠ [] := wordCount_pos_ne_nil (by omega)
  have hcne : pyCapitalize (pyStrip frag) ≠ [] := by
    cases he : pyStrip frag with
    | nil => exact absurd he hne
    | cons c rest => simp [pyCapitalize, he]
  have hlast : ∀ d, (pyCapitalize (pyStrip frag)).getLast? = some d →
      pyIsSpace d = false :=
    pyCapitalize_getLast?_not_space (fun d hd => pyStrip_getLast?_not_space hd)
  have hwc : wordCount (addQMark (pyCapitalize (pyStrip frag))) =
      wordCount (pyStrip frag) := by
    rw [hadd, wordCount,
      countWordsAux_append_nonspace _ false '?' (by decide) hlast hcne]
    exact countWordsAux_pyCapitalize _ false
  refine ⟨by omega, by omega, ?_⟩
  rw [hadd]
  exact endsExactlyOneQ_append hcq

/-- Witness for the amended C2 at a concrete nine-word payload. -/
theorem refiner_output_shape_witness :
    "What is the main purpose of database indexing here?".toList ∈
      processGenerated
        "what is the main purpose of database indexing here".toList ∧
    (6 ≤ wordCount "What is the main purpose of database indexing here?".toList ∧
     wordCount "What is the main purpose of database indexing here?".toList ≤ 18 ∧
     endsExactlyOneQ
       "What is the main purpose of database indexing here?".toList = true) :=
  ⟨by decide,
    refiner_output_shape
      "what is the main purpose of database indexing here".toList
      "What is the main purpose of database indexing here?".toList
      (by decide)⟩

/-- C10: on the refiner path every returned question has no uppercase
letter after its first character — `capitalize` lowercases everything past
position 0, so acronyms such as "ACID" are not preserved. -/
theorem refiner_no_uppercase_tail (raw x : Str)
    (hx : x ∈ processGenerated raw) :
    ∀ c ∈ x.drop 1, c.isUpper = false := by
  obtain ⟨frag, _, _, hxe⟩ := mem_processGenerated hx
  subst hxe
  intro c hc
  rw [addQMark] at hc
  cases hs : pyStrip frag with
  | nil =>
    rw [hs] at hc
    simp only [pyCapitalize] at hc
    split at hc
    · simp at hc
    · simp only [List.nil_append, List.drop_one, List.tail_cons] at hc
      simp at hc
  | cons a rest =>
    rw [hs] at hc
    simp only [pyCapitalize] at hc
    split at hc
    · simp only [List.drop_one, List.tail_cons] at hc
      obtain ⟨d, _, hde⟩ := List.mem_map.mp hc
      rw [← hde]
      exact isUpper_toLower d
    · simp only [List.cons_append, List.drop_one, List.tail_cons] at hc
      rcases List.mem_append.mp hc with hm | hm
      · obtain ⟨d, _, hde⟩ := List.mem_map.mp hm
        rw [← hde]
        exact isUpper_toLower d
      · rw [List.mem_singleton.mp hm]
        decide

/-- Witness for C10 at a payload containing the acronym "ACID". -/
theorem refiner_no_uppercase_tail_witness :
    "Explain the acid properties of a database transaction briefly?".toList ∈
      processGenerated
        "explain the ACID properties of a database transaction briefly".toList ∧
    ('c' ∈
      ("Explain the acid properties of a database transaction briefly?".toList).drop 1 ∧
      ('c' : Char).isUpper = false) :=
  ⟨by decide,
    by decide,
    refiner_no_uppercase_tail
      "explain the ACID properties of a database transaction briefly".toList
      "Explain the acid properties of a database transaction briefly?".toList
      (by decide) 'c' (by decide)⟩

/-! ## Scanner idempotence machinery (C6) -/

/-- Two adjacent characters are not a lowercase letter followed by an
uppercase letter (the camel-case boundary the scanner splits). -/
def noLU (a b : Char) : Prop := ¬(a.isLower = true ∧ b.isUpper = true)

theorem camelSplit_head :
    ∀ (c : Char) (l : Str), (camelSplit (c :: l)).head? = some c := by
  intro c l
  cases l with
  | nil => rfl
  | cons b rest =>
    unfold camelSplit
    split
    · rfl
    · rfl

theorem chain_noLU_camelSplit : ∀ l : Str, List.Chain' noLU (camelSplit l) := by
  intro l
  induction l using camelSplit.induct with
  | case1 => simp [camelSplit]
  | case2 c => simp [camelSplit]
  | case3 a b rest h ih =>
    rw [camelSplit, if_pos h]
    rw [List.chain'_cons]
    constructor
    · intro hcon
      exact absurd hcon.2 (by decide)
    · rw [List.chain'_cons']
      constructor
      · intro y _
        intro hcon
        exact absurd hcon.1 (by decide)
      · rw [List.chain'_cons']
        exact ⟨fun y hy hcon => by
          have hb : b.isUpper = true := (Bool.and_eq_true _ _ |>.mp h).2
          rw [isUpper_iff] at hb
          have hl := hcon.1
          rw [isLower_iff] at hl
          omega, ih⟩
  | case4 a b rest h ih =>
    rw [camelSplit, if_neg h]
    rw [List.chain'_cons']
    constructor
    · intro y hy
      rw [camelSplit_head b rest] at hy
      simp only [Option.mem_def, Option.some.injEq] at hy
      subst hy
      intro hcon
      exact h (by rw [hcon.1, hcon.2]; rfl)
    · exact ih

theorem camelSplit_eq_self_of_chain :
    ∀ l : Str, List.Chain' noLU l → camelSplit l = l := by
  intro l
  induction l using camelSplit.induct with
  | case1 => intro _; rfl
  | case2 c => intro _; rfl
  | case3 a b rest h ih =>
    intro hchain
    exfalso
    have := (List.chain'_cons.mp hchain).1
    rw [Bool.and_eq_true] at h
    exact this ⟨h.1, h.2⟩
  | case4 a b rest h ih =>
    intro hchain
    rw [camelSplit, if_neg h]
    rw [ih (List.chain'_cons.mp hchain).2]

theorem chain_noLU_bulletRepl {l : Str} (h : List.Chain' noLU l) :
    List.Chain' noLU (bulletRepl l) := by
  rw [bulletRepl, List.chain'_map]
  refine h.imp ?_
  intro a b hab
  intro hcon
  by_cases ha : isBullet a = true
  · rw [if_pos ha] at hcon
    simp [Char.isLower] at hcon
  · rw [if_neg ha] at hcon
    by_cases hb : isBullet b = true
    · rw [if_pos hb] at hcon
      simp [Char.isUpper] at hcon
    · rw [if_neg hb] at hcon
      exact hab hcon

theorem collapseGo_false_head (l : Str) :
    (collapseGo false l).head? =
      l.head?.map (fun c => if pyIsSpace c then ' ' else c) := by
  cases l with
  | nil => rfl
  | cons c t =>
    unfold collapseGo
    split
    · next hc => simp [hc]
    · next hc =>
      simp only [List.head?_cons, Option.map_some']
      rw [if_neg hc]

theorem chain_noLU_collapseGo :
    ∀ (l : Str) (b : Bool), List.Chain' noLU l →
      List.Chain' noLU (collapseGo b l) := by
  intro l
  induction l with
  | nil => intro b _; simp [collapseGo]
  | cons c t ih =>
    intro b hchain
    have htail : List.Chain' noLU t := hchain.tail
    unfold collapseGo
    split
    · next hc =>
      split
      · exact ih true htail
      · rw [List.chain'_cons']
        refine ⟨?_, ih true htail⟩
        intro y _
        intro hcon
        simp [Char.isLower] at hcon
    · next hc =>
      rw [List.chain'_cons']
      refine ⟨?_, ih false htail⟩
      intro y hy
      rw [collapseGo_false_head t] at hy
      cases t with
      | nil => simp at hy
      | cons d t' =>
        simp only [List.head?_cons, Option.map_some', Option.mem_def,
          Option.some.injEq] at hy
        subst hy
        split
        · intro hcon
          simp [Char.isUpper] at hcon
        · exact (List.chain'_cons.mp hchain).1

theorem mem_collapseGo :
    ∀ (l : Str) (b : Bool) (c : Char), c ∈ collapseGo b l → c = ' ' ∨ c ∈ l := by
  intro l
  induction l with
  | nil => intro b c h; simp [collapseGo] at h
  | cons d t ih =>
    intro b c h
    unfold collapseGo at h
    split at h
    · split at h
      · rcases ih true c h with h' | h'
        · exact Or.inl h'
        · exact Or.inr (List.mem_cons_of_mem _ h')
      · rcases List.mem_cons.mp h with rfl | h'
        · exact Or.inl rfl
        · rcases ih true c h' with h'' | h''
          · exact Or.inl h''
          · exact Or.inr (List.mem_cons_of_mem _ h'')
    · rcases List.mem_cons.mp h with rfl | h'
      · exact Or.inr (List.mem_cons_self _ _)
      · rcases ih false c h' with h'' | h''
        · exact Or.inl h''
        · exact Or.inr (List.mem_cons_of_mem _ h'')

theorem space_mem_collapseGo :
    ∀ (l : Str) (b : Bool) (c : Char), c ∈ collapseGo b l →
      pyIsSpace c = true → c = ' ' := by
  intro l
  induction l with
  | nil => intro b c h; simp [collapseGo] at h
  | cons d t ih =>
    intro b c h hsp
    unfold collapseGo at h
    split at h
    · split at h
      · exact ih true c h hsp
      · rcases List.mem_cons.mp h with rfl | h'
        · rfl
        · exact ih true c h' hsp
    · next hd =>
      rcases List.mem_cons.mp h with rfl | h'
      · exact absurd hsp (by simpa using hd)
      · exact ih false c h' hsp

theorem noBullets_bulletRepl (l : Str) :
    ∀ c ∈ bulletRepl l, isBullet c = false := by
  intro c hc
  rw [bulletRepl] at hc
  obtain ⟨d, _, hde⟩ := List.mem_map.mp hc
  by_cases hd : isBullet d = true
  · rw [if_pos hd] at hde
    rw [← hde]
    decide
  · rw [if_neg hd] at hde
    rw [← hde]
    exact Bool.eq_false_iff.mpr hd

theorem bulletRepl_eq_self {l : Str} (h : ∀ c ∈ l, isBullet c = false) :
    bulletRepl l = l := by
  rw [bulletRepl]
  rw [show l.map (fun c => if isBullet c then ' ' else c) = l.map id from
    List.map_congr_left (fun a ha => by rw [h a ha]; rfl)]
  exact List.map_id l

theorem collapseGo_eq_self :
    ∀ (l : Str) (b : Bool),
      (∀ c ∈ l, pyIsSpace c = true → c = ' ') →
      List.Chain' noWSRun l →
      (b = true → ∀ d, l.head? = some d → pyIsSpace d = false) →
      collapseGo b l = l := by
  intro l
  induction l with
  | nil => intro b _ _ _; rfl
  | cons c t ih =>
    intro b hws hchain hb
    unfold collapseGo
    split
    · next hc =>
      have hce : c = ' ' := hws c (List.mem_cons_self _ _) hc
      have hnotb : ¬(b = true) := by
        intro hbt
        rw [hb hbt c rfl] at hc
        exact Bool.false_ne_true hc
      rw [if_neg hnotb]
      have ht : collapseGo true t = t := by
        refine ih true (fun d hd hsp => hws d (List.mem_cons_of_mem _ hd) hsp)
          hchain.tail ?_
        intro _ d hd
        cases t with
        | nil => simp at hd
        | cons e t' =>
          simp only [List.head?_cons, Option.some.injEq] at hd
          subst hd
          have := (List.chain'_cons.mp hchain).1
          by_contra hsp
          rw [Bool.not_eq_false] at hsp
          exact this ⟨hc, hsp⟩
      rw [ht, hce]
    · next hc =>
      rw [ih false (fun d hd hsp => hws d (List.mem_cons_of_mem _ hd) hsp)
        hchain.tail (by intro h'; exact absurd h' (by simp))]

theorem dropWhile_eq_self_of_head {p : Char → Bool} {l : Str}
    (h : ∀ d, l.head? = some d → p d = false) :
    List.dropWhile p l = l := by
  cases l with
  | nil => rfl
  | cons c t =>
    rw [List.dropWhile_cons, if_neg]
    rw [h c rfl]
    simp

theorem getLast?_dropWhile_of_ne_nil {p : Char → Bool} {w : Str}
    (h : List.dropWhile p w ≠ []) :
    (List.dropWhile p w).getLast? = w.getLast? := by
  obtain ⟨pre, hpre⟩ := List.dropWhile_suffix p (l := w)
  conv_rhs => rw [← hpre]
  rw [List.getLast?_append_of_ne_nil _ h]

theorem pyStrip_head?_not_space {l : Str} {d : Char}
    (h : (pyStrip l).head? = some d) : pyIsSpace d = false := by
  rw [pyStrip, List.head?_reverse] at h
  have hne : List.dropWhile pyIsSpace (List.dropWhile pyIsSpace l).reverse ≠ [] := by
    intro he
    rw [he] at h
    simp at h
  rw [getLast?_dropWhile_of_ne_nil hne, List.getLast?_reverse] at h
  have hm := List.head?_dropWhile_not pyIsSpace l
  rw [h] at hm
  exact hm

theorem pyStrip_eq_self {l : Str}
    (hh : ∀ d, l.head? = some d → pyIsSpace d = false)
    (hl : ∀ d, l.getLast? = some d → pyIsSpace d = false) :
    pyStrip l = l := by
  rw [pyStrip, dropWhile_eq_self_of_head hh, dropWhile_eq_self_of_head ?_,
    List.reverse_reverse]
  intro d hd
  rw [List.head?_reverse] at hd
  exact hl d hd

/-- The canonical shape every scanner output has: no camel-case boundary,
no bullet glyphs, all whitespace is single interior spaces, and the ends
are non-whitespace.  A line of this shape passes through the normalization
passes unchanged. -/
def canonicalCand (c : Str) : Prop :=
  List.Chain' noLU c ∧ (∀ ch ∈ c, isBullet ch = false) ∧
  (∀ ch ∈ c, pyIsSpace ch = true → ch = ' ') ∧ List.Chain' noWSRun c ∧
  (∀ d, c.head? = some d → pyIsSpace d = false) ∧
  (∀ d, c.getLast? = some d → pyIsSpace d = false)

theorem normalizeLine_canonical (s : Str) : canonicalCand (normalizeLine s) := by
  refine ⟨?_, ?_, ?_, chain_noWSRun_normalizeLine s, ?_, ?_⟩
  · exact List.Chain'.infix (chain_noLU_collapseGo _ false
      (chain_noLU_bulletRepl (chain_noLU_camelSplit s))) (pyStrip_infixOf _)
  · intro ch hch
    have h1 : ch ∈ collapseWS (bulletRepl (camelSplit s)) :=
      mem_of_mem_pyStrip hch
    rcases mem_collapseGo _ false ch h1 with rfl | h2
    · decide
    · exact noBullets_bulletRepl _ ch h2
  · intro ch hch hsp
    exact space_mem_collapseGo _ false ch (mem_of_mem_pyStrip hch) hsp
  · intro d hd
    exact pyStrip_head?_not_space hd
  · intro d hd
    exact pyStrip_getLast?_not_space hd

theorem canonical_fixed {c : Str} (h : canonicalCand c) :
    pyStrip c = c ∧ normalizeLine c = c := by
  obtain ⟨hlu, hbul, hws, hchain, hhead, hlast⟩ := h
  have hstrip : pyStrip c = c := pyStrip_eq_self hhead hlast
  have hcamel : camelSplit c = c := camelSplit_eq_self_of_chain c hlu
  have hbr : bulletRepl c = c := bulletRepl_eq_self hbul
  have hcol : collapseGo false c = c :=
    collapseGo_eq_self c false hws hchain (by intro h'; exact absurd h' (by simp))
  refine ⟨hstrip, ?_⟩
  rw [normalizeLine, hcamel, hbr]
  rw [show collapseWS c = collapseGo false c from rfl, hcol, hstrip]

theorem newline_not_mem_canonical {c : Str} (h : canonicalCand c) :
    '\n' ∉ c := by
  intro hm
  have := h.2.2.1 '\n' hm (by decide)
  exact absurd this (by decide)

theorem nlGo_append_no_nl :
    ∀ (x : Str), '\n' ∉ x → ∀ (r cur : Str),
      nlGo (x ++ r) cur = nlGo r (x.reverse ++ cur) := by
  intro x
  induction x with
  | nil => intro _ r cur; simp
  | cons c xs ih =>
    intro hn r cur
    have hc : ¬(c = '\n') := fun he => hn (he ▸ List.mem_cons_self _ _)
    have hxs : '\n' ∉ xs := fun hm => hn (List.mem_cons_of_mem _ hm)
    rw [List.cons_append]
    show (if c = '\n' then cur.reverse :: nlGo (xs ++ r) []
          else nlGo (xs ++ r) (c :: cur)) = _
    rw [if_neg hc, ih hxs r (c :: cur)]
    simp [List.reverse_cons, List.append_assoc]

theorem splitNL_joinNL :
    ∀ (ls : List Str), ls ≠ [] → (∀ c ∈ ls, '\n' ∉ c) →
      splitNL (joinNL ls) = ls := by
  intro ls
  induction ls with
  | nil => intro h _; exact absurd rfl h
  | cons x rest ih =>
    intro _ hn
    cases rest with
    | nil =>
      have hx : '\n' ∉ x := hn x (List.mem_cons_self _ _)
      have h0 : nlGo (x ++ []) [] = nlGo [] (x.reverse ++ []) :=
        nlGo_append_no_nl x hx [] []
      rw [List.append_nil, List.append_nil] at h0
      rw [show joinNL [x] = x from rfl, splitNL, h0]
      simp [nlGo]
    | cons y rest' =>
      have hx : '\n' ∉ x := hn x (List.mem_cons_self _ _)
      rw [show joinNL (x :: y :: rest') = x ++ '\n' :: joinNL (y :: rest')
        from rfl]
      rw [splitNL, nlGo_append_no_nl x hx _ []]
      have hstep : nlGo ('\n' :: joinNL (y :: rest')) (x.reverse ++ []) =
          (x.reverse ++ []).reverse :: nlGo (joinNL (y :: rest')) [] := rfl
      rw [hstep, List.append_nil, List.reverse_reverse]
      rw [show nlGo (joinNL (y :: rest')) [] = splitNL (joinNL (y :: rest'))
        from rfl]
      rw [ih (by simp) (fun c hc => hn c (List.mem_cons_of_mem _ hc))]

/-- C6 (amended): the Candidate Scanner's output contains no two
exactly-equal strings, and re-running `extract_question_candidates` on its
own output (the candidates rejoined by newlines) adds nothing: every
candidate of the rerun already occurs in the original output.  (The rerun
can drop candidates whose normalized form is shorter than 25 characters,
so the original claim that the set is reproduced exactly fails — see the
counterexample.) -/
theorem scanner_nodup_rerun_subset (t x : Str)
    (hx : x ∈ extract_question_candidates
        (joinNL (extract_question_candidates t))) :
    (extract_question_candidates t).Nodup ∧
    x ∈ extract_question_candidates t := by
  refine ⟨nodup_dedup _, ?_⟩
  have h1 : x ∈ scanLines (splitNL (joinNL (extract_question_candidates t))) :=
    mem_of_mem_dedup hx
  obtain ⟨line, hline, hlen, hx'⟩ := scanLines_mem h1
  by_cases hc : extract_question_candidates t = []
  · rw [hc] at hline
    rw [show splitNL (joinNL ([] : List Str)) = [[]] from rfl] at hline
    rw [List.mem_singleton] at hline
    subst hline
    exact absurd hlen (by decide)
  · have hnn : ∀ c ∈ extract_question_candidates t, '\n' ∉ c := by
      intro c hcm
      obtain ⟨l0, _, _, hce⟩ := scanLines_mem (mem_of_mem_dedup hcm)
      rw [hce]
      exact newline_not_mem_canonical (normalizeLine_canonical _)
    rw [splitNL_joinNL _ hc hnn] at hline
    obtain ⟨l0, _, _, hle⟩ := scanLines_mem (mem_of_mem_dedup hline)
    have hcan := normalizeLine_canonical (pyStrip l0)
    rw [← hle] at hcan
    obtain ⟨hstrip, hnorm⟩ := canonical_fixed hcan
    rw [hx', hstrip, hnorm]
    exact hline

/-- Witness for the amended C6 at a concrete input whose candidate
survives the rerun. -/
theorem scanner_nodup_rerun_subset_witness :
    readableText ∈ extract_question_candidates
      (joinNL (extract_question_candidates readableText)) ∧
    ((extract_question_candidates readableText).Nodup ∧
      readableText ∈ extract_question_candidates readableText) :=
  ⟨by decide,
    scanner_nodup_rerun_subset readableText readableText (by decide)⟩

end QPAnalyze
